import Mathlib

/-!
Verification of the gopfield Hopfield-network library.

The Go source is shallowly embedded: float64 values are modelled as exact
rationals, gonum symmetric matrices as total functions on natural-number
indices, fallible calls as Except, and the process-wide pseudo-random
source as an explicit stream parameter.
-/

namespace Gopfield

/-- Float64 values of the Go source are modelled as exact rationals. -/
abbrev F := ℚ

/-- Pattern (pattern.go): a data pattern, a vector of floats. -/
abbrev Pattern := List F

/-- Reading entry i of a pattern, as Go slice indexing p[i] (in range at
every source call site; out of range reads return 0 in the model). -/
def pat (p : Pattern) (i : ℕ) : F := p.getD i 0

/-- A mat64.SymDense weight matrix is modelled as a total function on
indices; entries outside the allocated block stay 0. -/
abbrev Mat := ℕ → ℕ → F

/-- Matrix returned by mat64.NewSymDense(size, nil): all zeroes. -/
def zeroMat : Mat := fun _ _ => 0

/-- SetSym of mat64.SymDense: writes value v at positions (i,j) and (j,i). -/
def setSym (w : Mat) (i j : ℕ) (v : F) : Mat :=
  fun a b => if (a = i ∧ b = j) ∨ (a = j ∧ b = i) then v else w a b

/-- AddSym of mat64.SymDense: entrywise sum of two matrices. -/
def addMat (w v : Mat) : Mat := fun a b => w a b + v a b

/-- Symmetry of a weight matrix. -/
def IsSymm (w : Mat) : Prop := ∀ a b, w a b = w b a

theorem setSym_apply_same (w : Mat) (i j : ℕ) (v : F) : setSym w i j v i j = v := by
  simp [setSym]

theorem setSym_apply_other (w : Mat) (i j : ℕ) (v : F) (a b : ℕ)
    (h : ¬((a = i ∧ b = j) ∨ (a = j ∧ b = i))) : setSym w i j v a b = w a b := by
  simp [setSym, h]

theorem setSym_isSymm (w : Mat) (i j : ℕ) (v : F) (hw : IsSymm w) :
    IsSymm (setSym w i j v) := by
  intro a b
  by_cases h : (a = i ∧ b = j) ∨ (a = j ∧ b = i)
  · rcases h with ⟨ha, hb⟩ | ⟨ha, hb⟩ <;> subst ha <;> subst hb <;> simp [setSym]
  · rw [setSym_apply_other _ _ _ _ _ _ h, setSym_apply_other, hw a b]
    tauto

theorem addMat_isSymm (w v : Mat) (hw : IsSymm w) (hv : IsSymm v) :
    IsSymm (addMat w v) := by
  intro a b
  simp [addMat, hw a b, hv a b]

theorem zeroMat_isSymm : IsSymm zeroMat := fun _ _ => rfl

/-- Go accumulator loops of the shape sum += f(k) over k in [0, n) are
List.range folds; this rewrites them to a Finset sum. -/
theorem foldl_add_range (f : ℕ → F) (s : F) (n : ℕ) :
    (List.range n).foldl (fun acc k => acc + f k) s = s + ∑ k in Finset.range n, f k := by
  induction n generalizing s with
  | zero => simp
  | succ n ih =>
      rw [List.range_succ, List.foldl_append, ih, Finset.sum_range_succ]
      simp [add_assoc]

/-- Accumulator loops over k in [a, a+m) rewrite to a sum over an interval. -/
theorem foldl_add_range' (f : ℕ → F) (s : F) (a m : ℕ) :
    (List.range' a m).foldl (fun acc k => acc + f k) s =
      s + ∑ k in Finset.Ico a (a + m), f k := by
  induction m generalizing s a with
  | zero => simp
  | succ m ih =>
      rw [List.range'_succ, List.foldl_cons, ih,
        Finset.sum_eq_sum_Ico_succ_bot (by omega : a < a + (m + 1))]
      have : a + 1 + m = a + (m + 1) := by omega
      rw [this]
      ring

/-- Guarded accumulation (sum += f(k) under a condition) rewrites into an
unconditional accumulation of an if-expression. -/
theorem foldl_guard_eq (c : ℕ → Prop) [DecidablePred c] (g : ℕ → F) (l : List ℕ) (s : F) :
    l.foldl (fun acc k => if c k then acc + g k else acc) s =
      l.foldl (fun acc k => acc + if c k then g k else 0) s := by
  have h : (fun (acc : F) k => if c k then acc + g k else acc) =
      fun acc k => acc + if c k then g k else 0 := by
    funext acc k
    split <;> simp
  rw [h]

/-! Pattern encoder (pattern.go, Pattern-as-slice variant). -/

/-- Encode (pattern.go): builds a fresh pattern whose entries are -1 for
non-positive inputs and +1 for positive ones. -/
def Encode (data : List F) : Pattern :=
  data.map (fun x => if x ≤ 0 then -1 else 1)

/-- Sign flip written by one AddNoise loop iteration: np[j] = -np[j]. -/
def flipAt (l : Pattern) (j : ℕ) : Pattern := l.set j (-(pat l j))

/-- Loop body of AddNoise (pattern.go): iterates i over the copied pattern,
breaking once i exceeds (pcnt*n)/100, and flips the entry at a freshly drawn
random index rnd(i) % n (modelling rand.Intn(n)). The fuel argument counts
the loop iterations left before i reaches n. -/
def addNoiseLoop (pcnt n : ℕ) (rnd : ℕ → ℕ) : Pattern → ℕ → ℕ → Pattern
  | np, _, 0 => np
  | np, i, fuel+1 =>
    if pcnt * n / 100 < i then np
    else addNoiseLoop pcnt n rnd (flipAt np (rnd i % n)) (i + 1) fuel

/-- AddNoise (pattern.go): copies p and flips randomly chosen signs. -/
def AddNoise (p : Pattern) (pcnt : ℕ) (rnd : ℕ → ℕ) : Pattern :=
  addNoiseLoop pcnt p.length rnd p 0 p.length

/-! Claim C7. -/

/-- C7: Encode is deterministic, pure and total; strictly positive entries
map to +1 and non-positive ones (zero included) to -1; the empty sequence
encodes to the empty pattern; Encode of [-1, 0, 0.3] is [-1, -1, 1]; and
Encode is idempotent. -/
theorem encode_spec :
    (∀ d : List F, (Encode d).length = d.length) ∧
    (∀ d : List F, ∀ i, i < d.length → pat (Encode d) i = if 0 < pat d i then 1 else -1) ∧
    Encode [] = ([] : Pattern) ∧
    Encode [-1, 0, 3/10] = [-1, -1, 1] ∧
    (∀ d : List F, Encode (Encode d) = Encode d) := by
  refine ⟨fun d => by simp [Encode], fun d i hi => ?_, rfl, by norm_num [Encode], fun d => ?_⟩
  · have hi' : i < (Encode d).length := by simpa [Encode] using hi
    rw [pat, pat, List.getD_eq_getElem _ _ hi', List.getD_eq_getElem _ _ hi]
    simp only [Encode, List.getElem_map]
    rcases le_or_lt d[i] 0 with h | h
    · rw [if_pos h, if_neg (not_lt.mpr h)]
    · rw [if_neg (not_le.mpr h), if_pos h]
  · have hx : ∀ x : F,
        (if (if x ≤ 0 then (-1 : F) else 1) ≤ 0 then (-1 : F) else 1) = if x ≤ 0 then -1 else 1 := by
      intro x
      split_ifs with h1 h2 <;> norm_num at *
    simp only [Encode, List.map_map]
    congr 1
    funext x
    simp only [Function.comp_apply]
    exact hx x

/-- Witness for C7: the strictly positive entry 0.3 of the concrete input
encodes to +1. -/
theorem encode_spec_witness :
    pat (Encode [(-1 : F), 0, 3/10]) 2 = if 0 < pat [(-1 : F), 0, 3/10] 2 then 1 else -1 :=
  encode_spec.2.1 [(-1 : F), 0, 3/10] 2 (by norm_num)

/-! Claim C8. -/

/-- C8 counterexample: with percent = 0 the claim demands zero sign flips
(floor(0/100 * 4) = 0), so the result would equal the input for every
random draw; the code still flips one unit because its loop breaks only
when i exceeds (not reaches) the threshold. -/
theorem addNoise_zero_percent_still_flips :
    AddNoise [1, 1, 1, 1] 0 (fun _ => 0) ≠ [1, 1, 1, 1] := by
  norm_num [AddNoise, addNoiseLoop, flipAt, pat]

theorem addNoiseLoop_eq_foldl (pcnt n : ℕ) (rnd : ℕ → ℕ) :
    ∀ (fuel i : ℕ) (np : Pattern),
      addNoiseLoop pcnt n rnd np i fuel =
        (List.range' i (min fuel (pcnt * n / 100 + 1 - i))).foldl
          (fun np k => flipAt np (rnd k % n)) np := by
  intro fuel
  induction fuel with
  | zero => intro i np; simp [addNoiseLoop]
  | succ fuel ih =>
      intro i np
      by_cases h : pcnt * n / 100 < i
      · have : pcnt * n / 100 + 1 - i = 0 := by omega
        simp [addNoiseLoop, h, this]
      · have h1 : min (fuel + 1) (pcnt * n / 100 + 1 - i) =
            min fuel (pcnt * n / 100 + 1 - (i + 1)) + 1 := by omega
        rw [addNoiseLoop, if_neg h, ih (i + 1) (flipAt np (rnd i % n)), h1,
          List.range'_succ, List.foldl_cons]

theorem foldl_flip_length (g : ℕ → ℕ) (l : List ℕ) (p : Pattern) :
    (l.foldl (fun np k => flipAt np (g k)) p).length = p.length := by
  induction l generalizing p with
  | nil => rfl
  | cons k l ih =>
      rw [List.foldl_cons, ih]
      simp [flipAt]

/-- C8 amended: AddNoise returns a fresh pattern of the same length built
by flipping signs at indices drawn with replacement, but it performs
min(N, floor(percent*N/100) + 1) flip operations, one more than the
floor(percent*N/100) the claim states (capped by the pattern length). -/
theorem addNoise_flips_floor_succ :
    ∀ (p : Pattern) (pcnt : ℕ) (rnd : ℕ → ℕ),
      AddNoise p pcnt rnd =
        (List.range (min p.length (pcnt * p.length / 100 + 1))).foldl
          (fun np k => flipAt np (rnd k % p.length)) p ∧
      (AddNoise p pcnt rnd).length = p.length := by
  intro p pcnt rnd
  have h := addNoiseLoop_eq_foldl pcnt p.length rnd p.length 0 p
  rw [AddNoise, h, List.range_eq_range']
  exact ⟨rfl, foldl_flip_length _ _ _⟩

/-! Weight trainer (network.go): the hebbian and storkey StoreFuncs. -/

/-- Pattern dimension used by the trainers: the length of the first
pattern of the batch (dim := len(p[0]) in the source). -/
def dim0 (ps : List Pattern) : ℕ := (ps.headD []).length

/-- Innermost hebbian loop (network.go): for each pattern of the batch add
p[i]*p[j]/dim into the matrix cell (i,j). -/
def hebbianK (dim : ℕ) (ps : List Pattern) (i j : ℕ) (w : Mat) : Mat :=
  ps.foldl (fun w p => setSym w i j (w i j + pat p i * pat p j / (dim : F))) w

/-- Middle hebbian loop over the columns j = i+1 .. dim-1 of row i; fuel
counts the remaining iterations. -/
def hebbianJ (dim : ℕ) (ps : List Pattern) (i : ℕ) : ℕ → ℕ → Mat → Mat
  | _, 0, w => w
  | j, fuel+1, w => hebbianJ dim ps i (j+1) fuel (hebbianK dim ps i j w)

/-- Outer hebbian loop over the rows i = 0 .. dim-1. -/
def hebbianI (dim : ℕ) (ps : List Pattern) : ℕ → ℕ → Mat → Mat
  | _, 0, w => w
  | i, fuel+1, w => hebbianI dim ps (i+1) fuel (hebbianJ dim ps i (i+1) (dim - (i+1)) w)

/-- hebbian (network.go): the Hebbian weight-increment matrix of a batch,
built on a fresh zero matrix by traversing the upper triangle. -/
def hebbian (ps : List Pattern) : Mat :=
  hebbianI (dim0 ps) ps 0 (dim0 ps) zeroMat

/-- Total Hebbian contribution of a batch to one cell. -/
def hebbSum (dim : ℕ) (ps : List Pattern) (a b : ℕ) : F :=
  (ps.map (fun p => pat p a * pat p b / (dim : F))).sum

theorem hebbSum_comm (dim : ℕ) (ps : List Pattern) (a b : ℕ) :
    hebbSum dim ps a b = hebbSum dim ps b a := by
  unfold hebbSum
  have h : (fun p => pat p a * pat p b / (dim : F)) =
      fun p => pat p b * pat p a / (dim : F) := by
    funext p; ring
  rw [h]

theorem hebbianK_apply (dim : ℕ) (ps : List Pattern) (i j : ℕ) :
    ∀ (w : Mat), w j i = w i j → ∀ a b,
      hebbianK dim ps i j w a b =
        if (a = i ∧ b = j) ∨ (a = j ∧ b = i) then w i j + hebbSum dim ps i j else w a b := by
  induction ps with
  | nil =>
      intro w hw a b
      simp only [hebbianK, List.foldl_nil, hebbSum, List.map_nil, List.sum_nil, add_zero]
      by_cases h : (a = i ∧ b = j) ∨ (a = j ∧ b = i)
      · rw [if_pos h]
        rcases h with ⟨ha, hb⟩ | ⟨ha, hb⟩ <;> subst ha <;> subst hb
        · rfl
        · exact hw
      · rw [if_neg h]
  | cons p ps ih =>
      intro w hw a b
      have step : hebbianK dim (p :: ps) i j w a b =
          hebbianK dim ps i j (setSym w i j (w i j + pat p i * pat p j / (dim : F))) a b := rfl
      have hsym : (setSym w i j (w i j + pat p i * pat p j / (dim : F))) j i =
          (setSym w i j (w i j + pat p i * pat p j / (dim : F))) i j := by
        simp [setSym]
      rw [step, ih _ hsym a b]
      by_cases h : (a = i ∧ b = j) ∨ (a = j ∧ b = i)
      · rw [if_pos h, if_pos h, setSym_apply_same]
        simp only [hebbSum, List.map_cons, List.sum_cons]
        ring
      · rw [if_neg h, if_neg h, setSym_apply_other _ _ _ _ _ _ h]

theorem hebbianJ_apply (dim : ℕ) (ps : List Pattern) (i : ℕ) :
    ∀ (fuel j : ℕ) (w : Mat), IsSymm w → i < j → ∀ a b,
      hebbianJ dim ps i j fuel w a b =
        if (a = i ∧ j ≤ b ∧ b < j + fuel) ∨ (b = i ∧ j ≤ a ∧ a < j + fuel)
        then w a b + hebbSum dim ps a b else w a b := by
  intro fuel
  induction fuel with
  | zero =>
      intro j w _ _ a b
      rw [hebbianJ, if_neg]
      rintro (⟨_, h1, h2⟩ | ⟨_, h1, h2⟩) <;> omega
  | succ fuel ih =>
      intro j w hw hij a b
      have step : hebbianJ dim ps i j (fuel + 1) w a b =
          hebbianJ dim ps i (j + 1) fuel (hebbianK dim ps i j w) a b := rfl
      have hK := hebbianK_apply dim ps i j w (hw j i)
      have hKsym : IsSymm (hebbianK dim ps i j w) := by
        intro a b
        rw [hK a b, hK b a]
        by_cases h : (a = i ∧ b = j) ∨ (a = j ∧ b = i)
        · rw [if_pos h, if_pos (by tauto)]
        · rw [if_neg h, if_neg (by tauto), hw a b]
      rw [step, ih (j + 1) _ hKsym (by omega) a b]
      by_cases hcell : (a = i ∧ b = j) ∨ (a = j ∧ b = i)
      · have hrest : ¬((a = i ∧ j + 1 ≤ b ∧ b < j + 1 + fuel) ∨
            (b = i ∧ j + 1 ≤ a ∧ a < j + 1 + fuel)) := by
          rcases hcell with ⟨ha, hb⟩ | ⟨ha, hb⟩ <;> omega
        have hall : (a = i ∧ j ≤ b ∧ b < j + (fuel + 1)) ∨
            (b = i ∧ j ≤ a ∧ a < j + (fuel + 1)) := by
          rcases hcell with ⟨ha, hb⟩ | ⟨ha, hb⟩ <;> omega
        rw [if_neg hrest, if_pos hall, hK a b, if_pos hcell]
        rcases hcell with ⟨ha, hb⟩ | ⟨ha, hb⟩ <;> subst ha <;> subst hb
        · rfl
        · rw [hw b a, hebbSum_comm]
      · have hKab : hebbianK dim ps i j w a b = w a b := by
          rw [hK a b, if_neg hcell]
        by_cases hrest : (a = i ∧ j + 1 ≤ b ∧ b < j + 1 + fuel) ∨
            (b = i ∧ j + 1 ≤ a ∧ a < j + 1 + fuel)
        · have hall : (a = i ∧ j ≤ b ∧ b < j + (fuel + 1)) ∨
              (b = i ∧ j ≤ a ∧ a < j + (fuel + 1)) := by
            rcases hrest with ⟨ha, h1, h2⟩ | ⟨ha, h1, h2⟩ <;> omega
          rw [if_pos hrest, if_pos hall, hKab]
        · have hall : ¬((a = i ∧ j ≤ b ∧ b < j + (fuel + 1)) ∨
              (b = i ∧ j ≤ a ∧ a < j + (fuel + 1))) := by
            rintro (⟨ha, h1, h2⟩ | ⟨ha, h1, h2⟩)
            · subst ha
              have hb : b = j := by
                by_contra hbj
                exact hrest (Or.inl ⟨rfl, by omega, by omega⟩)
              exact hcell (Or.inl ⟨rfl, hb⟩)
            · subst ha
              have hb : a = j := by
                by_contra hbj
                exact hrest (Or.inr ⟨rfl, by omega, by omega⟩)
              exact hcell (Or.inr ⟨hb, rfl⟩)
          rw [if_neg hrest, if_neg hall, hKab]

theorem hebbianI_apply (dim : ℕ) (ps : List Pattern) :
    ∀ (fuel i : ℕ) (w : Mat), IsSymm w → ∀ a b,
      hebbianI dim ps i fuel w a b =
        if a ≠ b ∧ i ≤ min a b ∧ min a b < i + fuel ∧ max a b < dim
        then w a b + hebbSum dim ps a b else w a b := by
  intro fuel
  induction fuel with
  | zero =>
      intro i w _ a b
      rw [hebbianI, if_neg]
      rintro ⟨_, h1, h2, _⟩
      omega
  | succ fuel ih =>
      intro i w hw a b
      have step : hebbianI dim ps i (fuel + 1) w a b =
          hebbianI dim ps (i + 1) fuel (hebbianJ dim ps i (i + 1) (dim - (i + 1)) w) a b := rfl
      have hJ := hebbianJ_apply dim ps i (dim - (i + 1)) (i + 1) w hw (by omega)
      have hJsym : IsSymm (hebbianJ dim ps i (i + 1) (dim - (i + 1)) w) := by
        intro a b
        rw [hJ a b, hJ b a]
        by_cases h : (a = i ∧ i + 1 ≤ b ∧ b < i + 1 + (dim - (i + 1))) ∨
            (b = i ∧ i + 1 ≤ a ∧ a < i + 1 + (dim - (i + 1)))
        · rw [if_pos h, if_pos (by tauto), hw a b, hebbSum_comm]
        · rw [if_neg h, if_neg (by tauto), hw a b]
      rw [step, ih (i + 1) _ hJsym a b]
      by_cases hJc : (a = i ∧ i + 1 ≤ b ∧ b < i + 1 + (dim - (i + 1))) ∨
          (b = i ∧ i + 1 ≤ a ∧ a < i + 1 + (dim - (i + 1)))
      · have hJab : hebbianJ dim ps i (i + 1) (dim - (i + 1)) w a b =
            w a b + hebbSum dim ps a b := by
          rw [hJ a b, if_pos hJc]
        have hrest : ¬(a ≠ b ∧ i + 1 ≤ min a b ∧ min a b < i + 1 + fuel ∧ max a b < dim) := by
          rcases hJc with ⟨ha, h1, h2⟩ | ⟨ha, h1, h2⟩ <;> omega
        have hall : a ≠ b ∧ i ≤ min a b ∧ min a b < i + (fuel + 1) ∧ max a b < dim := by
          rcases hJc with ⟨ha, h1, h2⟩ | ⟨ha, h1, h2⟩ <;>
            refine ⟨by omega, by omega, by omega, by omega⟩
        rw [if_neg hrest, if_pos hall, hJab]
      · have hJab : hebbianJ dim ps i (i + 1) (dim - (i + 1)) w a b = w a b := by
          rw [hJ a b, if_neg hJc]
        by_cases hrest : a ≠ b ∧ i + 1 ≤ min a b ∧ min a b < i + 1 + fuel ∧ max a b < dim
        · have hall : a ≠ b ∧ i ≤ min a b ∧ min a b < i + (fuel + 1) ∧ max a b < dim := by
            omega
          rw [if_pos hrest, if_pos hall, hJab]
        · have hall : ¬(a ≠ b ∧ i ≤ min a b ∧ min a b < i + (fuel + 1) ∧ max a b < dim) := by
            rintro ⟨hne, h1, h2, h3⟩
            rcases Nat.lt_or_ge (min a b) (i + 1) with hmin | hmin
            · have hmi : min a b = i := by omega
              rcases Nat.lt_or_ge a b with hab | hab
              · exact hJc (Or.inl ⟨by omega, by omega, by omega⟩)
              · exact hJc (Or.inr ⟨by omega, by omega, by omega⟩)
            · exact hrest ⟨hne, hmin, by omega, h3⟩
          rw [if_neg hrest, if_neg hall, hJab]

/-- Closed form of the hebbian StoreFunc: strictly off-diagonal in-range
cells hold the batch contribution, everything else stays zero. -/
theorem hebbian_apply (ps : List Pattern) (a b : ℕ) :
    hebbian ps a b =
      if a ≠ b ∧ a < dim0 ps ∧ b < dim0 ps then hebbSum (dim0 ps) ps a b else 0 := by
  have h := hebbianI_apply (dim0 ps) ps (dim0 ps) 0 zeroMat zeroMat_isSymm a b
  rw [hebbian, h]
  by_cases hc : a ≠ b ∧ 0 ≤ min a b ∧ min a b < 0 + dim0 ps ∧ max a b < dim0 ps
  · rw [if_pos hc, if_pos (by omega)]
    simp [zeroMat]
  · rw [if_neg hc, if_neg (by omega)]
    rfl

theorem hebbian_isSymm (ps : List Pattern) : IsSymm (hebbian ps) := by
  intro a b
  rw [hebbian_apply, hebbian_apply]
  by_cases h : a ≠ b ∧ a < dim0 ps ∧ b < dim0 ps
  · rw [if_pos h, if_pos (by tauto), hebbSum_comm]
  · rw [if_neg h, if_neg (by tauto)]

/-- localField (network.go): the Storkey local field, summing w[i][k]*p[k]
over all k of the pattern range except i and j. -/
def localField (w : Mat) (p : Pattern) (i j : ℕ) : F :=
  (List.range p.length).foldl (fun s k => if k ≠ i ∧ k ≠ j then s + w i k * pat p k else s) 0

/-- One storkey update (network.go): the contribution of pattern p to cell
(i,j), with local fields read against the delta matrix accumulated so far
inside this store call. -/
def storkeyK (dim : ℕ) (i j : ℕ) (w : Mat) (p : Pattern) : Mat :=
  setSym w i j (w i j +
    (pat p i * pat p j - pat p i * localField w p j i - pat p j * localField w p i j) *
      (1 / (dim : F)))

/-- Innermost storkey loop: all patterns of the batch at cell (i,j). -/
def storkeyKs (dim : ℕ) (ps : List Pattern) (i j : ℕ) (w : Mat) : Mat :=
  ps.foldl (storkeyK dim i j) w

/-- Middle storkey loop over the columns j = i+1 .. dim-1 of row i. -/
def storkeyJ (dim : ℕ) (ps : List Pattern) (i : ℕ) : ℕ → ℕ → Mat → Mat
  | _, 0, w => w
  | j, fuel+1, w => storkeyJ dim ps i (j+1) fuel (storkeyKs dim ps i j w)

/-- Outer storkey loop over the rows i = 0 .. dim-1. -/
def storkeyI (dim : ℕ) (ps : List Pattern) : ℕ → ℕ → Mat → Mat
  | _, 0, w => w
  | i, fuel+1, w => storkeyI dim ps (i+1) fuel (storkeyJ dim ps i (i+1) (dim - (i+1)) w)

/-- storkey (network.go): the Storkey weight-increment matrix of a batch,
built on a fresh zero matrix by traversing the upper triangle. -/
def storkey (ps : List Pattern) : Mat :=
  storkeyI (dim0 ps) ps 0 (dim0 ps) zeroMat

theorem storkeyKs_isSymm (dim : ℕ) (ps : List Pattern) (i j : ℕ) :
    ∀ (w : Mat), IsSymm w → IsSymm (storkeyKs dim ps i j w) := by
  induction ps with
  | nil => intro w hw; exact hw
  | cons p ps ih =>
      intro w hw
      exact ih _ (setSym_isSymm _ _ _ _ hw)

theorem storkeyJ_isSymm (dim : ℕ) (ps : List Pattern) (i : ℕ) :
    ∀ (fuel j : ℕ) (w : Mat), IsSymm w → IsSymm (storkeyJ dim ps i j fuel w) := by
  intro fuel
  induction fuel with
  | zero => intro j w hw; exact hw
  | succ fuel ih => intro j w hw; exact ih _ _ (storkeyKs_isSymm dim ps i j w hw)

theorem storkeyI_isSymm (dim : ℕ) (ps : List Pattern) :
    ∀ (fuel i : ℕ) (w : Mat), IsSymm w → IsSymm (storkeyI dim ps i fuel w) := by
  intro fuel
  induction fuel with
  | zero => intro i w hw; exact hw
  | succ fuel ih => intro i w hw; exact ih _ _ (storkeyJ_isSymm dim ps i _ _ w hw)

theorem storkey_isSymm (ps : List Pattern) : IsSymm (storkey ps) :=
  storkeyI_isSymm _ _ _ _ _ zeroMat_isSymm

/-! Claim C2: the order in which a storkey store pass walks cells and
patterns. -/

/-- Local field as the spec words it: a sum over the whole index range
that deliberately excludes the two indices a and b. -/
def localFieldSpec (w : Mat) (p : Pattern) (a b : ℕ) : F :=
  ∑ k in Finset.range p.length, if k ≠ a ∧ k ≠ b then w a k * pat p k else 0

theorem localField_eq_spec (w : Mat) (p : Pattern) (i j : ℕ) :
    localField w p i j = localFieldSpec w p i j := by
  rw [localField, localFieldSpec, foldl_guard_eq, foldl_add_range, zero_add]

/-- Unordered index pairs of the upper triangle in the loop order of the
source: rows ascending, columns ascending inside a row. -/
def pairsLex (dim : ℕ) : List (ℕ × ℕ) :=
  (List.range dim).flatMap (fun i => (List.range' (i + 1) (dim - (i + 1))).map (fun j => (i, j)))

/-- Storkey increment of one pattern at one cell in the words of the spec:
add (1/N)(p[i]p[j] - p[i]h(j,i) - p[j]h(i,j)) into W[i][j] and W[j][i]. -/
def storkeyCellSpec (dim : ℕ) (w : Mat) (i j : ℕ) (p : Pattern) : Mat :=
  setSym w i j (w i j + (1 / (dim : F)) *
    (pat p i * pat p j - pat p i * localFieldSpec w p j i - pat p j * localFieldSpec w p i j))

/-- Storkey store pass in the order the code actually uses: cells of the
upper triangle outermost in lexicographic order, and at each cell the
batch patterns applied one after the other against the delta accumulated
so far within the call. -/
def storkeyPairSeq (ps : List Pattern) : Mat :=
  (pairsLex (dim0 ps)).foldl
    (fun w ij => ps.foldl (fun w p => storkeyCellSpec (dim0 ps) w ij.1 ij.2 p) w) zeroMat

/-- Storkey store pass as claim C2 words it: patterns outermost, so that
each pattern sees the complete updates of all previous patterns. -/
def storkeyPatternSeq (ps : List Pattern) : Mat :=
  ps.foldl
    (fun w p =>
      (pairsLex (dim0 ps)).foldl (fun w ij => storkeyCellSpec (dim0 ps) w ij.1 ij.2 p) w)
    zeroMat

theorem storkeyK_eq_cellSpec (dim i j : ℕ) (w : Mat) (p : Pattern) :
    storkeyK dim i j w p = storkeyCellSpec dim w i j p := by
  rw [storkeyK, storkeyCellSpec, localField_eq_spec, localField_eq_spec, mul_comm]

theorem storkeyKs_eq (dim : ℕ) (ps : List Pattern) (i j : ℕ) (w : Mat) :
    storkeyKs dim ps i j w = ps.foldl (fun w p => storkeyCellSpec dim w i j p) w := by
  unfold storkeyKs
  have h : storkeyK dim i j = fun w p => storkeyCellSpec dim w i j p := by
    funext w p
    exact storkeyK_eq_cellSpec dim i j w p
  rw [h]

theorem storkeyJ_eq (dim : ℕ) (ps : List Pattern) (i : ℕ) :
    ∀ (fuel j : ℕ) (w : Mat),
      storkeyJ dim ps i j fuel w =
        ((List.range' j fuel).map (fun j' => (i, j'))).foldl
          (fun w ij => ps.foldl (fun w p => storkeyCellSpec dim w ij.1 ij.2 p) w) w := by
  intro fuel
  induction fuel with
  | zero => intro j w; rfl
  | succ fuel ih =>
      intro j w
      rw [List.range'_succ, List.map_cons, List.foldl_cons]
      show storkeyJ dim ps i (j + 1) fuel (storkeyKs dim ps i j w) = _
      rw [ih (j + 1), storkeyKs_eq]

theorem storkeyI_eq (dim : ℕ) (ps : List Pattern) :
    ∀ (fuel i : ℕ) (w : Mat),
      storkeyI dim ps i fuel w =
        ((List.range' i fuel).flatMap
            (fun r => (List.range' (r + 1) (dim - (r + 1))).map (fun j => (r, j)))).foldl
          (fun w ij => ps.foldl (fun w p => storkeyCellSpec dim w ij.1 ij.2 p) w) w := by
  intro fuel
  induction fuel with
  | zero => intro i w; rfl
  | succ fuel ih =>
      intro i w
      rw [List.range'_succ, List.flatMap_cons, List.foldl_append]
      show storkeyI dim ps (i + 1) fuel (storkeyJ dim ps i (i + 1) (dim - (i + 1)) w) = _
      rw [ih (i + 1), storkeyJ_eq]

/-- C2 amended: a storkey store pass walks the unordered pairs (i,j) of
the upper triangle outermost (rows ascending, columns ascending), with the
pattern loop innermost; each single-pattern increment at a pair adds
(1/N)(p[i]p[j] - p[i]h(j,i) - p[j]h(i,j)) to W[i][j] and W[j][i], where
the local field h is taken against the delta accumulated so far within
this store call and excludes the two pair indices. A pattern therefore
sees the other patterns' increments at earlier pairs and only the earlier
patterns' increments at its own pair, not the complete updates of the
previous patterns. -/
theorem storkey_eq_pairSeq : ∀ ps : List Pattern, storkey ps = storkeyPairSeq ps := by
  intro ps
  rw [storkey, storkeyI_eq, storkeyPairSeq, pairsLex, List.range_eq_range']

/-- C2 counterexample: for the dimension-3 batch of the two bipolar
patterns (1,1,1) and (1,1,-1) the weight increment at cell (0,1) produced
by the code is 2/3, while the pattern-sequential schedule the claim
describes yields 64/81, so the claim's reading of the loop order is false
on the code. -/
theorem storkey_not_patternSeq :
    storkey [[1, 1, 1], [1, 1, -1]] 0 1 ≠ storkeyPatternSeq [[1, 1, 1], [1, 1, -1]] 0 1 := by
  norm_num [storkey, storkeyI, storkeyJ, storkeyKs, storkeyK, localField, setSym, zeroMat, pat,
    dim0, storkeyPatternSeq, storkeyCellSpec, localFieldSpec, pairsLex,
    List.range_succ, List.range'_succ, Finset.sum_range_succ]

/-! Hopfield network (network.go): the Net type and its operations. -/

/-- Net (network.go): the neuron states, the symmetric weight matrix, the
bias vector and the store function selected at construction. The field n
is the number of neurons (the length of the neurons slice). -/
structure Net where
  n : ℕ
  neurons : ℕ → F
  weights : Mat
  bias : ℕ → F
  storeFunc : List Pattern → Mat

/-- NewNet (network.go): fails on non-positive size or a training method
missing from the package store map; neurons start at state 0, weights and
bias are all zero, and the store function of the chosen method is fixed
into the network. -/
def NewNet (size : ℤ) (method : String) : Except String Net :=
  if size ≤ 0 then .error "invalid network size"
  else if method = "hebbian" then
    .ok { n := size.toNat, neurons := fun _ => 0, weights := zeroMat,
          bias := fun _ => 0, storeFunc := hebbian }
  else if method = "storkey" then
    .ok { n := size.toNat, neurons := fun _ => 0, weights := zeroMat,
          bias := fun _ => 0, storeFunc := storkey }
  else .error "unsupported training method"

/-- Store (network.go): rejects an empty batch and any pattern whose
length differs from the neuron count, then adds the increment matrix
produced by the store function onto the current weights. -/
def Net.Store (net : Net) (patterns : List Pattern) : Except String Net :=
  if patterns.isEmpty then .error "invalid patterns supplied"
  else if patterns.any (fun p => p.length ≠ net.n) then .error "pattern dimension mismatch"
  else .ok { net with weights := addMat net.weights (net.storeFunc patterns) }

/-- Loop state of Restore (network.go): the in-place mutated pattern, the
neuron states, and the two iteration counters. -/
structure RunSt where
  p : Pattern
  neurons : ℕ → F
  eqiter : ℕ
  maxiter : ℕ

/-- Weighted input of unit i: the inner sum loop of Restore. -/
def weightSumRow (net : Net) (p : Pattern) (i : ℕ) : F :=
  (List.range net.n).foldl (fun s j => s + net.weights i j * pat p j) 0

/-- Threshold value written into p[i] while visiting unit i: +1 when the
weighted input reaches the bias, -1 otherwise. -/
def newUnitVal (net : Net) (st : RunSt) (i : ℕ) : F :=
  if net.bias i ≤ weightSumRow net st.p i then 1 else -1

/-- One visited unit of a Restore sweep: p[i] is overwritten with the
threshold value; ChangeState flips the neuron exactly when the new value
has strictly opposite sign, and then the no-change counter eqiter resets
to 0, otherwise eqiter increments. -/
def nextSt (net : Net) (st : RunSt) (i : ℕ) : RunSt :=
  if newUnitVal net st i * st.neurons i < 0 then
    { p := st.p.set i (newUnitVal net st i),
      neurons := fun k => if k = i then -(st.neurons i) else st.neurons k,
      eqiter := 0, maxiter := st.maxiter }
  else
    { p := st.p.set i (newUnitVal net st i),
      neurons := st.neurons,
      eqiter := st.eqiter + 1, maxiter := st.maxiter }

/-- The inner Restore loop over one sweep's visit order, returning from
the middle of the sweep the moment the counter reaches eqiters (the Bool
records that early equilibrium return). -/
def seqRun (net : Net) (eqN : ℕ) : RunSt → List ℕ → RunSt × Bool
  | st, [] => (st, false)
  | st, i :: rest =>
    if (nextSt net st i).eqiter = eqN then (nextSt net st i, true)
    else seqRun net eqN (nextSt net st i) rest

/-- The outer Restore loop: runs sweeps while maxiter < maxiters, drawing
each sweep's visit order from the stream, and stops as soon as a sweep
reports equilibrium. -/
def sweepRun (net : Net) (eqN : ℕ) (stream : ℕ → List ℕ) : RunSt → ℕ → RunSt × Bool
  | st, 0 => (st, false)
  | st, fuel+1 =>
    if (seqRun net eqN st (stream st.maxiter)).2 then
      ((seqRun net eqN st (stream st.maxiter)).1, true)
    else
      sweepRun net eqN stream
        { (seqRun net eqN st (stream st.maxiter)).1 with
            maxiter := (seqRun net eqN st (stream st.maxiter)).1.maxiter + 1 } fuel

/-- Restore (network.go): validates the pattern and both iteration bounds,
seeds the neuron states from the pattern, and runs the asynchronous update
loop; the fresh random permutation drawn by rand.Perm for each sweep is
modelled by the stream argument. Returns the in-place mutated pattern
together with the network carrying the mutated neuron states. -/
def Net.Restore (net : Net) (p : Pattern) (maxiters eqiters : ℤ) (stream : ℕ → List ℕ) :
    Except String (Pattern × Net) :=
  if p.length ≠ net.n then .error "dimension mismatch"
  else if maxiters ≤ 0 then .error "invalid number of max iterations"
  else if eqiters ≤ 0 then .error "invalid number of equilibrium iterations"
  else
    .ok ((sweepRun net eqiters.toNat stream
            { p := p, neurons := fun i => pat p i, eqiter := 0, maxiter := 0 }
            maxiters.toNat).1.p,
         { net with neurons :=
            (sweepRun net eqiters.toNat stream
              { p := p, neurons := fun i => pat p i, eqiter := 0, maxiter := 0 }
              maxiters.toNat).1.neurons })

/-- Energy (network.go): the negated sum of the upper-triangle weight
terms and the bias terms; fails when the pattern length differs from the
neuron count. -/
def Net.Energy (net : Net) (p : Pattern) : Except String F :=
  if p.length ≠ net.n then .error "dimension mismatch"
  else
    .ok (-(((List.range net.n).foldl
        (fun acc i => (List.range' (i + 1) (net.n - (i + 1))).foldl
          (fun acc j => acc + net.weights i j * pat p i * pat p j) acc) 0) +
      (List.range net.n).foldl (fun acc i => acc + net.bias i * pat p i) 0))

/-- Inversion of a successful Store call: the batch was non-empty, every
pattern had the network dimension, and only the weights changed, by
adding the store function increment. -/
theorem store_ok_inv (net : Net) (ps : List Pattern) (net' : Net)
    (h : net.Store ps = .ok net') :
    ps ≠ [] ∧ (∀ p ∈ ps, p.length = net.n) ∧
      net' = { net with weights := addMat net.weights (net.storeFunc ps) } := by
  unfold Net.Store at h
  split_ifs at h with h1 h2
  refine ⟨?_, ?_, ?_⟩
  · intro hnil
    exact h1 (by simp [hnil])
  · intro p hp
    simp only [List.any_eq_true, decide_eq_true_eq] at h2
    push_neg at h2
    exact h2 p hp
  · have := h
    rw [Except.ok.injEq] at this
    exact this.symm

/-- Inversion of a successful NewNet call. -/
theorem newNet_ok_inv (size : ℤ) (method : String) (net : Net)
    (h : NewNet size method = .ok net) :
    0 < size ∧ net.n = size.toNat ∧ net.neurons = (fun _ => 0) ∧ net.weights = zeroMat ∧
      net.bias = (fun _ => 0) ∧ (net.storeFunc = hebbian ∨ net.storeFunc = storkey) := by
  unfold NewNet at h
  split_ifs at h with h1 h2 h3
  · rw [Except.ok.injEq] at h
    subst h
    exact ⟨by omega, rfl, rfl, rfl, rfl, Or.inl rfl⟩
  · rw [Except.ok.injEq] at h
    subst h
    exact ⟨by omega, rfl, rfl, rfl, rfl, Or.inr rfl⟩

/-! Claim C1. -/

/-- Folding a sequence of Store calls over a freshly constructed network;
a failing call aborts the sequence, so a successful run is exactly a
sequence of successful Store calls. -/
def runStores (start : Except String Net) (batches : List (List Pattern)) :
    Except String Net :=
  batches.foldl (fun acc ps => acc.bind (fun net => net.Store ps)) start

/-- Invariant carried through store sequences: the weights are symmetric
and the store function is one of the two learning rules. -/
def GoodNet (net : Net) : Prop :=
  IsSymm net.weights ∧ (net.storeFunc = hebbian ∨ net.storeFunc = storkey)

theorem store_good (net : Net) (ps : List Pattern) (net' : Net)
    (h : net.Store ps = .ok net') (hg : GoodNet net) : GoodNet net' := by
  obtain ⟨-, -, hnet⟩ := store_ok_inv net ps net' h
  subst hnet
  refine ⟨?_, hg.2⟩
  apply addMat_isSymm _ _ hg.1
  rcases hg.2 with hf | hf <;> rw [hf]
  · exact hebbian_isSymm ps
  · exact storkey_isSymm ps

theorem runStores_good :
    ∀ (batches : List (List Pattern)) (start : Except String Net) (net' : Net),
      (∀ net, start = .ok net → GoodNet net) →
      runStores start batches = .ok net' → GoodNet net' := by
  intro batches
  induction batches with
  | nil => intro start net' hstart h; exact hstart net' h
  | cons ps batches ih =>
      intro start net' hstart h
      refine ih (start.bind (fun net => net.Store ps)) net' ?_ h
      intro net hb
      cases start with
      | error e => exact Except.noConfusion hb
      | ok net0 => exact store_good net0 ps net hb (hstart net0 rfl)

/-- C1: for every freshly constructed network (either learning rule) and
every sequence of successful Store calls, the weight matrix stays
symmetric on all indices of the network range. -/
theorem weights_symmetric (size : ℤ) (method : String) (batches : List (List Pattern))
    (net' : Net) (h : runStores (NewNet size method) batches = .ok net') :
    ∀ i j, i < net'.n → j < net'.n → net'.weights i j = net'.weights j i := by
  have hg : GoodNet net' := by
    refine runStores_good batches _ net' ?_ h
    intro net hnew
    obtain ⟨-, -, -, hw, -, hf⟩ := newNet_ok_inv size method net hnew
    exact ⟨by rw [hw]; exact zeroMat_isSymm, hf⟩
  exact fun i j _ _ => hg.1 i j

/-- Fallback network used to read successful results out of Except values
in concrete computations. -/
def getNetD : Except String Net → Net → Net
  | .ok net, _ => net
  | .error _, d => d

/-- Concrete two-neuron Hebbian network used by concrete instances. -/
def netEx : Net :=
  { n := 2, neurons := fun _ => 0, weights := zeroMat, bias := fun _ => 0,
    storeFunc := hebbian }

/-- Witness for C1: a two-neuron Hebbian network with one stored batch has
a symmetric weight matrix at the off-diagonal pair. -/
theorem weights_symmetric_witness :
    runStores (NewNet 2 "hebbian") [[[(1 : F), -1]]] =
      .ok (getNetD (runStores (NewNet 2 "hebbian") [[[(1 : F), -1]]]) netEx) ∧
    (getNetD (runStores (NewNet 2 "hebbian") [[[(1 : F), -1]]]) netEx).weights 0 1 =
      (getNetD (runStores (NewNet 2 "hebbian") [[[(1 : F), -1]]]) netEx).weights 1 0 := by
  have h : runStores (NewNet 2 "hebbian") [[[(1 : F), -1]]] =
      .ok (getNetD (runStores (NewNet 2 "hebbian") [[[(1 : F), -1]]]) netEx) := rfl
  exact ⟨h, weights_symmetric 2 "hebbian" _ _ h 0 1 (by decide) (by decide)⟩

/-! Claim C3. -/

/-- C3: a successful Store on a Hebbian network adds, for every
off-diagonal in-range pair (i,j), exactly the batch sum of
p[i]*p[j]/N onto the existing weight (N the network dimension, mirrored
onto both triangles by the symmetric write), and leaves every diagonal
entry untouched. -/
theorem store_hebbian_increment (net : Net) (ps : List Pattern) (net' : Net)
    (hf : net.storeFunc = hebbian) (h : net.Store ps = .ok net') :
    (∀ i j, i < net.n → j < net.n → i ≠ j →
      net'.weights i j = net.weights i j +
        (ps.map (fun p => pat p i * pat p j / (net.n : F))).sum) ∧
    (∀ i, net'.weights i i = net.weights i i) := by
  obtain ⟨hne, hlen, hnet⟩ := store_ok_inv net ps net' h
  have hdim : dim0 ps = net.n := by
    cases ps with
    | nil => exact absurd rfl hne
    | cons p ps => exact hlen p (List.mem_cons_self p ps)
  subst hnet
  constructor
  · intro i j hi hj hij
    show addMat net.weights (net.storeFunc ps) i j = _
    simp only [addMat, hf]
    rw [hebbian_apply, hdim, if_pos ⟨hij, hi, hj⟩]
    rfl
  · intro i
    show addMat net.weights (net.storeFunc ps) i i = _
    simp only [addMat, hf]
    rw [hebbian_apply, if_neg (by simp)]
    exact add_zero _

/-- Witness for C3: storing the single bipolar pattern (1,-1) in the
two-neuron Hebbian network adds 1*(-1)/2 at cell (0,1). -/
theorem store_hebbian_increment_witness :
    netEx.Store [[(1 : F), -1]] = .ok (getNetD (netEx.Store [[(1 : F), -1]]) netEx) ∧
    (getNetD (netEx.Store [[(1 : F), -1]]) netEx).weights 0 1 =
      netEx.weights 0 1 +
        ([[(1 : F), -1]].map (fun p => pat p 0 * pat p 1 / (netEx.n : F))).sum := by
  have h : netEx.Store [[(1 : F), -1]] = .ok (getNetD (netEx.Store [[(1 : F), -1]]) netEx) := rfl
  exact ⟨h, (store_hebbian_increment netEx _ _ rfl h).1 0 1 (by decide) (by decide) (by decide)⟩

/-! Claim C5. -/

theorem nextSt_maxiter (net : Net) (st : RunSt) (i : ℕ) :
    (nextSt net st i).maxiter = st.maxiter := by
  unfold nextSt
  split <;> rfl

/-- The inner sweep loop reports equilibrium only with the counter exactly
at eqiters, and it never touches the sweep counter. -/
theorem seqRun_prop (net : Net) (eqN : ℕ) :
    ∀ (l : List ℕ) (st : RunSt),
      ((seqRun net eqN st l).2 = true → (seqRun net eqN st l).1.eqiter = eqN) ∧
      (seqRun net eqN st l).1.maxiter = st.maxiter := by
  intro l
  induction l with
  | nil =>
      intro st
      exact ⟨fun h => by simp [seqRun] at h, rfl⟩
  | cons i rest ih =>
      intro st
      by_cases h : (nextSt net st i).eqiter = eqN
      · simp only [seqRun, if_pos h]
        exact ⟨fun _ => h, nextSt_maxiter net st i⟩
      · simp only [seqRun, if_neg h]
        exact ⟨(ih (nextSt net st i)).1, ((ih (nextSt net st i)).2).trans (nextSt_maxiter net st i)⟩

/-- The outer loop either stops at equilibrium (counter exactly eqiters)
or completes exactly its full budget of sweeps. -/
theorem sweepRun_dichotomy (net : Net) (eqN : ℕ) (stream : ℕ → List ℕ) :
    ∀ (fuel : ℕ) (st : RunSt),
      ((sweepRun net eqN stream st fuel).2 = true ∧
        (sweepRun net eqN stream st fuel).1.eqiter = eqN) ∨
      ((sweepRun net eqN stream st fuel).2 = false ∧
        (sweepRun net eqN stream st fuel).1.maxiter = st.maxiter + fuel) := by
  intro fuel
  induction fuel with
  | zero => intro st; exact Or.inr ⟨rfl, rfl⟩
  | succ fuel ih =>
      intro st
      by_cases h : (seqRun net eqN st (stream st.maxiter)).2 = true
      · simp only [sweepRun, if_pos h]
        exact Or.inl ⟨by trivial, (seqRun_prop net eqN (stream st.maxiter) st).1 h⟩
      · simp only [sweepRun, if_neg h]
        rcases ih ({ (seqRun net eqN st (stream st.maxiter)).1 with
            maxiter := (seqRun net eqN st (stream st.maxiter)).1.maxiter + 1 }) with
          ⟨h1, h2⟩ | ⟨h1, h2⟩
        · exact Or.inl ⟨h1, h2⟩
        · refine Or.inr ⟨h1, ?_⟩
          rw [h2]
          have hm := (seqRun_prop net eqN (stream st.maxiter) st).2
          show (seqRun net eqN st (stream st.maxiter)).1.maxiter + 1 + fuel = st.maxiter + (fuel + 1)
          rw [hm]
          omega

/-- C5: an asynchronous Restore with valid arguments never fails: it
returns the in-place mutated pattern of the run, and the run stops either
the moment the consecutive no-change counter reaches eqiters (possibly in
the middle of a sweep) or after completing exactly maxiters sweeps;
exhausting the sweep budget still returns the pattern with no error. -/
theorem restore_budget_spec (net : Net) (p : Pattern) (maxiters eqiters : ℤ)
    (stream : ℕ → List ℕ) (hp : p.length = net.n) (hm : 0 < maxiters) (he : 0 < eqiters) :
    ∃ q net', net.Restore p maxiters eqiters stream = .ok (q, net') ∧
      q = (sweepRun net eqiters.toNat stream
            { p := p, neurons := fun i => pat p i, eqiter := 0, maxiter := 0 }
            maxiters.toNat).1.p ∧
      (((sweepRun net eqiters.toNat stream
            { p := p, neurons := fun i => pat p i, eqiter := 0, maxiter := 0 }
            maxiters.toNat).2 = true ∧
        (sweepRun net eqiters.toNat stream
            { p := p, neurons := fun i => pat p i, eqiter := 0, maxiter := 0 }
            maxiters.toNat).1.eqiter = eqiters.toNat) ∨
       ((sweepRun net eqiters.toNat stream
            { p := p, neurons := fun i => pat p i, eqiter := 0, maxiter := 0 }
            maxiters.toNat).2 = false ∧
        (sweepRun net eqiters.toNat stream
            { p := p, neurons := fun i => pat p i, eqiter := 0, maxiter := 0 }
            maxiters.toNat).1.maxiter = maxiters.toNat)) := by
  refine ⟨(sweepRun net eqiters.toNat stream
      { p := p, neurons := fun i => pat p i, eqiter := 0, maxiter := 0 } maxiters.toNat).1.p,
    { net with neurons := (sweepRun net eqiters.toNat stream
        { p := p, neurons := fun i => pat p i, eqiter := 0, maxiter := 0 }
        maxiters.toNat).1.neurons },
    ?_, rfl, ?_⟩
  · unfold Net.Restore
    rw [if_neg (by omega), if_neg (by omega), if_neg (by omega)]
  · have h := sweepRun_dichotomy net eqiters.toNat stream maxiters.toNat
      { p := p, neurons := fun i => pat p i, eqiter := 0, maxiter := 0 }
    simpa using h

/-- Witness for C5: a concrete asynchronous restore with both budgets set
to 2 succeeds on the two-neuron network. -/
theorem restore_budget_spec_witness :
    ∃ q net', netEx.Restore [1, -1] 2 2 (fun _ => [0, 1]) = .ok (q, net') := by
  obtain ⟨q, net', h, -, -⟩ :=
    restore_budget_spec netEx [1, -1] 2 2 (fun _ => [0, 1]) (by decide) (by norm_num)
      (by norm_num)
  exact ⟨q, net', h⟩

/-! Claim C6. -/

/-- Energy on a pattern of the right dimension: the closed double-sum
form of the two accumulator loops. -/
theorem energy_ok (net : Net) (p : Pattern) (h : p.length = net.n) :
    net.Energy p = .ok (-((∑ i in Finset.range net.n, ∑ j in Finset.Ico (i + 1) net.n,
        net.weights i j * pat p i * pat p j) +
      ∑ i in Finset.range net.n, net.bias i * pat p i)) := by
  unfold Net.Energy
  rw [if_neg (by omega)]
  have hfun : (fun (acc : F) i => (List.range' (i + 1) (net.n - (i + 1))).foldl
      (fun acc j => acc + net.weights i j * pat p i * pat p j) acc) =
      fun acc i => acc + ∑ j in Finset.Ico (i + 1) (i + 1 + (net.n - (i + 1))),
        net.weights i j * pat p i * pat p j := by
    funext acc i
    exact foldl_add_range' _ _ _ _
  rw [hfun, foldl_add_range, zero_add, foldl_add_range, zero_add]
  have hsum : (∑ i in Finset.range net.n, ∑ j in Finset.Ico (i + 1) (i + 1 + (net.n - (i + 1))),
      net.weights i j * pat p i * pat p j) =
      ∑ i in Finset.range net.n, ∑ j in Finset.Ico (i + 1) net.n,
        net.weights i j * pat p i * pat p j := by
    refine Finset.sum_congr rfl ?_
    intro i hi
    have hib : i + 1 + (net.n - (i + 1)) = net.n := by
      have := Finset.mem_range.mp hi
      omega
    rw [hib]
  rw [hsum]

/-- C6: for a pattern of the network dimension, Energy returns exactly the
negated sum of the upper-triangle weight terms and the bias terms, and it
fails exactly when the pattern is empty or of the wrong length (an empty
pattern always mismatches a positive network size). Purity holds by
construction: Energy reads the network and the pattern and returns a
value, mutating nothing. -/
theorem energy_spec (net : Net) (p : Pattern) (hn : 0 < net.n) :
    (p.length = net.n →
      net.Energy p = .ok (-((∑ i in Finset.range net.n, ∑ j in Finset.Ico (i + 1) net.n,
          net.weights i j * pat p i * pat p j) +
        ∑ i in Finset.range net.n, net.bias i * pat p i))) ∧
    ((∃ e, net.Energy p = .error e) ↔ p = [] ∨ p.length ≠ net.n) := by
  refine ⟨energy_ok net p, ?_⟩
  by_cases h : p.length = net.n
  · rw [energy_ok net p h]
    constructor
    · rintro ⟨e, he⟩
      exact Except.noConfusion he
    · rintro (rfl | hne)
      · exfalso
        simp at h
        omega
      · exact absurd h hne
  · unfold Net.Energy
    rw [if_pos h]
    exact ⟨fun _ => Or.inr h, fun _ => ⟨_, rfl⟩⟩

/-- Witness for C6: the energy of the bipolar pattern (1,-1) on the fresh
two-neuron network evaluates through the closed form. -/
theorem energy_spec_witness :
    0 < netEx.n ∧
    netEx.Energy [1, -1] =
      .ok (-((∑ i in Finset.range netEx.n, ∑ j in Finset.Ico (i + 1) netEx.n,
          netEx.weights i j * pat [(1 : F), -1] i * pat [(1 : F), -1] j) +
        ∑ i in Finset.range netEx.n, netEx.bias i * pat [(1 : F), -1] i)) :=
  ⟨by decide, (energy_spec netEx [1, -1] (by decide)).1 (by decide)⟩

/-! Claim C10. -/

/-- Inversion of a successful Restore: everything but the neuron states is
returned unchanged. -/
theorem restore_ok_inv (net : Net) (p : Pattern) (mi ei : ℤ) (s : ℕ → List ℕ)
    (r : Pattern × Net) (h : net.Restore p mi ei s = .ok r) :
    r.2.n = net.n ∧ r.2.weights = net.weights ∧ r.2.bias = net.bias ∧
      r.2.storeFunc = net.storeFunc := by
  unfold Net.Restore at h
  split_ifs at h with h1 h2 h3
  rw [Except.ok.injEq] at h
  subst h
  exact ⟨rfl, rfl, rfl, rfl⟩

/-- One call against the network, as issued by a caller: a failed call
leaves the network untouched (validation happens before any mutation),
Energy never mutates. -/
inductive NetOp where
  | store : List Pattern → NetOp
  | restore : Pattern → ℤ → ℤ → (ℕ → List ℕ) → NetOp
  | energy : Pattern → NetOp

def applyOp (net : Net) (op : NetOp) : Net :=
  match op with
  | .store ps =>
      match net.Store ps with
      | .ok net' => net'
      | .error _ => net
  | .restore p mi ei s =>
      match net.Restore p mi ei s with
      | .ok r => r.2
      | .error _ => net
  | .energy _ => net

/-- Any sequence of calls against the network. -/
def applyOps (net : Net) (ops : List NetOp) : Net := ops.foldl applyOp net

theorem applyOp_preserves (net : Net) (op : NetOp) :
    (applyOp net op).bias = net.bias ∧ (applyOp net op).n = net.n := by
  cases op with
  | store ps =>
      cases h : net.Store ps with
      | error e => simp [applyOp, h]
      | ok net' =>
          obtain ⟨-, -, rfl⟩ := store_ok_inv net ps net' h
          simp [applyOp, h]
  | restore p mi ei s =>
      cases h : net.Restore p mi ei s with
      | error e => simp [applyOp, h]
      | ok r =>
          obtain ⟨hn, -, hb, -⟩ := restore_ok_inv net p mi ei s r h
          simp [applyOp, h, hn, hb]
  | energy p => exact ⟨rfl, rfl⟩

theorem applyOps_preserves (net : Net) (ops : List NetOp) :
    (applyOps net ops).bias = net.bias ∧ (applyOps net ops).n = net.n := by
  induction ops generalizing net with
  | nil => exact ⟨rfl, rfl⟩
  | cons op ops ih =>
      have h1 := applyOp_preserves net op
      have h2 := ih (applyOp net op)
      exact ⟨h2.1.trans h1.1, h2.2.trans h1.2⟩

/-- C10: every network state reachable from construction through any
sequence of Store, Restore and Energy calls still has the all-zero bias
vector; consequently replacing the bias by the zero vector changes no
Restore call (every threshold comparison is effectively against 0), and
the bias term of every Energy result vanishes. -/
theorem bias_zero_reachable (size : ℤ) (method : String) (net0 : Net) (ops : List NetOp)
    (h : NewNet size method = .ok net0) :
    (∀ i, (applyOps net0 ops).bias i = 0) ∧
    (∀ p mi ei s, Net.Restore (applyOps net0 ops) p mi ei s =
      Net.Restore { applyOps net0 ops with bias := fun _ => 0 } p mi ei s) ∧
    (∀ p, p.length = (applyOps net0 ops).n →
      Net.Energy (applyOps net0 ops) p =
        .ok (-(∑ i in Finset.range (applyOps net0 ops).n,
          ∑ j in Finset.Ico (i + 1) (applyOps net0 ops).n,
            (applyOps net0 ops).weights i j * pat p i * pat p j))) := by
  obtain ⟨-, -, -, -, hbias0, -⟩ := newNet_ok_inv size method net0 h
  have hb : (applyOps net0 ops).bias = fun _ => 0 :=
    (applyOps_preserves net0 ops).1.trans hbias0
  refine ⟨fun i => by rw [hb], ?_, ?_⟩
  · intro p mi ei s
    have heq : ({ applyOps net0 ops with bias := fun _ => 0 } : Net) = applyOps net0 ops := by
      rw [← hb]
    rw [heq]
  · intro p hp
    rw [energy_ok _ _ hp, hb]
    simp

/-- Witness for C10: after construction and one stored batch, the bias at
index 0 is 0. -/
theorem bias_zero_reachable_witness :
    NewNet 2 "hebbian" = .ok (getNetD (NewNet 2 "hebbian") netEx) ∧
    (applyOps (getNetD (NewNet 2 "hebbian") netEx) [NetOp.store [[(1 : F), -1]]]).bias 0 = 0 :=
  ⟨rfl, (bias_zero_reachable 2 "hebbian" _ [NetOp.store [[(1 : F), -1]]] rfl).1 0⟩

/-! Network variant of the unnamed source file: sync and async restore
modes, the capacity estimate, and case-insensitive method validation. -/

/-- Network (unnamed source file): weights, bias, the training method
string fixed at construction, and the memorised pattern counter. The
field n is the matrix dimension (the neuron count). -/
structure Network where
  n : ℕ
  weights : Mat
  bias : ℕ → F
  method : String
  memorised : ℕ

/-- strings.EqualFold on the ASCII strings used by this package: equality
of the character sequences after lower-casing. -/
def eqFold (a b : String) : Bool := a.data.map Char.toLower == b.data.map Char.toLower

/-- NewNetwork (unnamed source file): fails on non-positive size and on
any method that is case-insensitively neither hebbian nor storkey;
weights and bias start all zero. -/
def NewNetwork (size : ℤ) (method : String) : Except String Network :=
  if size ≤ 0 then .error "invalid network size"
  else if !(eqFold "hebbian" method) && !(eqFold "storkey" method) then
    .error "unsupported training method"
  else .ok { n := size.toNat, weights := zeroMat, bias := fun _ => 0,
             method := method, memorised := 0 }

/-- Capacity (unnamed source file): floor of n/(2*sqrt(ln n)) for the
storkey method and floor of n/(2*ln n) otherwise. -/
noncomputable def Network.Capacity (net : Network) : ℤ :=
  if eqFold "storkey" net.method then
    ⌊(net.n : ℝ) / (2 * Real.sqrt (Real.log (net.n : ℝ)))⌋
  else ⌊(net.n : ℝ) / (2 * Real.log (net.n : ℝ))⌋

/-- Store (unnamed source file): validates, then dispatches on the exact
method string (an unmatched method stores nothing); the per-batch delta is
built by the same loops as the hebbian and storkey store functions above
and added onto the weights. -/
def Network.Store (net : Network) (patterns : List Pattern) : Except String Network :=
  if patterns.isEmpty then .error "invalid patterns supplied"
  else if patterns.any (fun p => p.length ≠ net.n) then .error "invalid pattern dimension"
  else if net.method = "hebbian" then
    .ok { net with weights := addMat net.weights (hebbian patterns) }
  else if net.method = "storkey" then
    .ok { net with weights := addMat net.weights (storkey patterns) }
  else .ok net

/-- Row i of the gonum MulVec product W*p, computed against the old
pattern for every row simultaneously. -/
def mulVecRow (net : Network) (p : Pattern) (i : ℕ) : F :=
  ∑ j in Finset.range net.n, net.weights i j * pat p j

/-- restoreSync (unnamed source file): one full-matrix update; every entry
of W*p is thresholded against the bias and written back. -/
def Network.restoreSync (net : Network) (p : Pattern) : Pattern :=
  (List.range net.n).map (fun i => if net.bias i ≤ mulVecRow net p i then (1 : F) else -1)

/-- One asynchronous unit visit of restoreAsync: the thresholded state is
written only when its sign strictly differs from the current one. -/
def asyncUnit (net : Network) (p : Pattern) (i : ℕ) : Pattern :=
  if pat p i * (if net.bias i ≤ ∑ j in Finset.range p.length, net.weights i j * pat p j
      then (1 : F) else -1) < 0 then
    p.set i (if net.bias i ≤ ∑ j in Finset.range p.length, net.weights i j * pat p j
      then (1 : F) else -1)
  else p

/-- The sweeps of restoreAsync: iters sweeps, each over a freshly drawn
permutation from the stream. -/
def asyncSweeps (net : Network) (stream : ℕ → List ℕ) : Pattern → ℕ → ℕ → Pattern
  | p, _, 0 => p
  | p, k, fuel+1 => asyncSweeps net stream ((stream k).foldl (asyncUnit net) p) (k + 1) fuel

/-- restoreAsync (unnamed source file). -/
def Network.restoreAsync (net : Network) (p : Pattern) (iters : ℕ)
    (stream : ℕ → List ℕ) : Pattern :=
  asyncSweeps net stream p 0 iters

/-- Restore (unnamed source file): validates the pattern, validates iters
only when the mode is case-insensitively async, then dispatches on the
exact mode string; iters is ignored by sync mode. -/
def Network.Restore (net : Network) (p : Pattern) (mode : String) (iters : ℤ)
    (stream : ℕ → List ℕ) : Except String Pattern :=
  if p.length ≠ net.n then .error "invalid pattern dimension"
  else if eqFold "async" mode && decide (iters ≤ 0) then .error "invalid number of iterations"
  else if mode = "sync" then .ok (net.restoreSync p)
  else if mode = "async" then .ok (net.restoreAsync p iters.toNat stream)
  else .error "unsupported mode"

/-- Inversion of a successful NewNetwork call. -/
theorem newNetwork_ok_inv (size : ℤ) (method : String) (net : Network)
    (h : NewNetwork size method = .ok net) :
    0 < size ∧ net.n = size.toNat ∧ net.weights = zeroMat ∧ net.bias = (fun _ => 0) ∧
      net.method = method ∧ net.memorised = 0 := by
  unfold NewNetwork at h
  split_ifs at h with h1 h2
  rw [Except.ok.injEq] at h
  subst h
  exact ⟨by omega, rfl, rfl, rfl, rfl, rfl⟩

/-- Inversion of a successful Store call on a hebbian-method Network. -/
theorem network_store_hebbian_inv (net : Network) (ps : List Pattern) (net' : Network)
    (hm : net.method = "hebbian") (h : net.Store ps = .ok net') :
    ps ≠ [] ∧ (∀ p ∈ ps, p.length = net.n) ∧
      net' = { net with weights := addMat net.weights (hebbian ps) } := by
  unfold Network.Store at h
  split_ifs at h with h1 h2
  refine ⟨?_, ?_, ?_⟩
  · intro hnil
    exact h1 (by simp [hnil])
  · intro p hp
    simp only [List.any_eq_true, decide_eq_true_eq] at h2
    push_neg at h2
    exact h2 p hp
  · rw [Except.ok.injEq] at h
    exact h.symm

/-! Claim C4. -/

/-- C4: for every bipolar pattern q of dimension n at least 2, storing the
one-element batch [q] under the Hebbian rule in a freshly created Network
(bias all zero) and then restoring q in sync mode returns q unchanged: the
stored pattern is a fixed point of the synchronous update. -/
theorem single_pattern_sync_fixed_point (n : ℕ) (q : Pattern) (net net' : Network)
    (res : Pattern) (iters : ℤ) (stream : ℕ → List ℕ)
    (hn : 2 ≤ n) (hq : q.length = n) (hbip : ∀ i, i < n → pat q i = 1 ∨ pat q i = -1)
    (hnew : NewNetwork (n : ℤ) "hebbian" = .ok net)
    (hstore : net.Store [q] = .ok net')
    (hrestore : net'.Restore q "sync" iters stream = .ok res) :
    res = q := by
  obtain ⟨-, hnn, hw0, hb0, hmeth, -⟩ := newNetwork_ok_inv _ _ _ hnew
  have hnetn : net.n = n := by rw [hnn]; exact Int.toNat_natCast n
  obtain ⟨-, -, hnet'⟩ := network_store_hebbian_inv net [q] net' hmeth hstore
  have hn' : net'.n = n := by rw [hnet']; exact hnetn
  have hb' : ∀ i, net'.bias i = 0 := by
    intro i
    rw [hnet']
    exact congrFun hb0 i
  have hW : ∀ i j, net'.weights i j = hebbian [q] i j := by
    intro i j
    rw [hnet']
    show net.weights i j + hebbian [q] i j = hebbian [q] i j
    rw [hw0]
    exact zero_add _
  have hdim : dim0 [q] = n := hq
  have hnpos : (0 : F) < (n : F) := by
    have h0 : (0 : ℕ) < n := by omega
    exact_mod_cast h0
  have hn1 : (1 : F) ≤ (n : F) - 1 := by
    have h2 : ((2 : ℕ) : F) ≤ (n : F) := by exact_mod_cast hn
    push_cast at h2
    linarith
  have hmain : ∀ i, i < n → mulVecRow net' q i = ((n : F) - 1) * (pat q i / (n : F)) := by
    intro i hi
    unfold mulVecRow
    rw [hn']
    have hterm : ∀ j ∈ Finset.range n, net'.weights i j * pat q j =
        if j = i then 0 else pat q i / (n : F) := by
      intro j hj
      have hj' : j < n := Finset.mem_range.mp hj
      rw [hW i j, hebbian_apply, hdim]
      by_cases hij : j = i
      · subst hij
        rw [if_neg (by simp), if_pos rfl]
        exact zero_mul _
      · rw [if_pos ⟨fun hc => hij hc.symm, hi, hj'⟩, if_neg hij]
        have hsum1 : hebbSum n [q] i j = pat q i * pat q j / (n : F) := by
          simp [hebbSum]
        rw [hsum1]
        rcases hbip j hj' with h1 | h1 <;> rw [h1] <;> ring
    rw [Finset.sum_congr rfl hterm]
    have hsplit : ∀ j ∈ Finset.range n, (if j = i then (0 : F) else pat q i / (n : F)) =
        pat q i / (n : F) - (if j = i then pat q i / (n : F) else 0) := by
      intro j _
      by_cases hji : j = i <;> simp [hji]
    rw [Finset.sum_congr rfl hsplit, Finset.sum_sub_distrib, Finset.sum_const,
      Finset.sum_ite_eq' (Finset.range n) i (fun _ => pat q i / (n : F)),
      if_pos (Finset.mem_range.mpr hi), Finset.card_range, nsmul_eq_mul]
    ring
  have hthresh : ∀ i, i < n →
      (if net'.bias i ≤ mulVecRow net' q i then (1 : F) else -1) = pat q i := by
    intro i hi
    rw [hb' i, hmain i hi]
    rcases hbip i hi with h1 | h1 <;> rw [h1]
    · rw [if_pos]
      exact mul_nonneg (by linarith) (by positivity)
    · rw [if_neg]
      intro hle
      have hpos2 : 0 < ((n : F) - 1) * (1 / (n : F)) :=
        mul_pos (by linarith) (by positivity)
      have : ((n : F) - 1) * (-1 / (n : F)) = -(((n : F) - 1) * (1 / (n : F))) := by ring
      rw [this] at hle
      linarith
  have hsync : net'.restoreSync q = q := by
    unfold Network.restoreSync
    rw [hn']
    apply List.ext_getElem
    · simp [hq]
    · intro i h1 h2
      simp only [List.getElem_map, List.getElem_range]
      have hi : i < n := by simpa using h1
      rw [hthresh i hi]
      exact (List.getD_eq_getElem q 0 h2).symm ▸ rfl
  unfold Network.Restore at hrestore
  rw [if_neg (by omega), if_neg ?hasync, if_pos rfl] at hrestore
  case hasync =>
    rw [show eqFold "async" "sync" = false from by decide]
    simp
  rw [Except.ok.injEq] at hrestore
  rw [← hrestore, hsync]

/-- Concrete two-neuron hebbian Network and its state after storing the
bipolar pattern (1,-1). -/
def hebNet2 : Network :=
  { n := 2, weights := zeroMat, bias := fun _ => 0, method := "hebbian", memorised := 0 }

def hebNet2q : Network :=
  { hebNet2 with weights := addMat zeroMat (hebbian [[(1 : F), -1]]) }

/-- Witness for C4: the concrete pattern (1,-1) stored in a fresh
two-neuron hebbian Network is returned unchanged by a sync restore. -/
theorem single_pattern_sync_fixed_point_witness :
    NewNetwork 2 "hebbian" = .ok hebNet2 ∧
    hebNet2.Store [[(1 : F), -1]] = .ok hebNet2q ∧
    ∃ res, hebNet2q.Restore [(1 : F), -1] "sync" 0 (fun _ => []) = .ok res ∧
      res = [(1 : F), -1] := by
  have h1 : NewNetwork 2 "hebbian" = .ok hebNet2 := rfl
  have h2 : hebNet2.Store [[(1 : F), -1]] = .ok hebNet2q := rfl
  have h3 : hebNet2q.Restore [(1 : F), -1] "sync" 0 (fun _ => []) =
      .ok (hebNet2q.restoreSync [(1 : F), -1]) := rfl
  refine ⟨h1, h2, _, h3, ?_⟩
  refine single_pattern_sync_fixed_point 2 [(1 : F), -1] hebNet2 hebNet2q _ 0 (fun _ => [])
    (le_refl 2) rfl ?_ h1 h2 h3
  intro i hi
  interval_cases i
  · left; rfl
  · right; rfl

/-! Claim C9. -/

/-- Concrete two-neuron storkey Network. -/
def storkNet2 : Network :=
  { n := 2, weights := zeroMat, bias := fun _ => 0, method := "storkey", memorised := 0 }

theorem log_two_lower : (1 / 2 : ℝ) < Real.log 2 := by
  have h := Real.log_two_gt_d9
  norm_num at h ⊢
  linarith

theorem log_two_upper : Real.log 2 < 1 := by
  have h := Real.log_two_lt_d9
  norm_num at h ⊢
  linarith

theorem cap_storkey_two : ⌊(2 : ℝ) / (2 * Real.sqrt (Real.log 2))⌋ = 1 := by
  have hL0 : (0 : ℝ) < Real.log 2 := by linarith [log_two_lower]
  have hs0 : 0 < Real.sqrt (Real.log 2) := Real.sqrt_pos.mpr hL0
  have hs1 : (1 / 2 : ℝ) < Real.sqrt (Real.log 2) := by
    rw [Real.lt_sqrt (by norm_num)]
    have := log_two_lower
    norm_num
    linarith
  have hs2 : Real.sqrt (Real.log 2) < 1 := by
    rw [Real.sqrt_lt' one_pos]
    have := log_two_upper
    norm_num
    linarith
  rw [Int.floor_eq_iff]
  constructor
  · push_cast
    rw [le_div_iff₀ (by positivity)]
    linarith
  · push_cast
    rw [div_lt_iff₀ (by positivity)]
    linarith

theorem cap_hebbian_two : ⌊(2 : ℝ) / (2 * Real.log 2)⌋ = 1 := by
  have hL0 : (0 : ℝ) < Real.log 2 := by linarith [log_two_lower]
  rw [Int.floor_eq_iff]
  constructor
  · push_cast
    rw [le_div_iff₀ (by positivity)]
    linarith [log_two_upper]
  · push_cast
    rw [div_lt_iff₀ (by positivity)]
    linarith [log_two_lower]

theorem capacity_storkey_eq (net : Network) (hm : net.method = "storkey") :
    net.Capacity = ⌊(net.n : ℝ) / (2 * Real.sqrt (Real.log (net.n : ℝ)))⌋ := by
  unfold Network.Capacity
  rw [hm, if_pos (by decide)]

theorem capacity_hebbian_eq (net : Network) (hm : net.method = "hebbian") :
    net.Capacity = ⌊(net.n : ℝ) / (2 * Real.log (net.n : ℝ))⌋ := by
  unfold Network.Capacity
  rw [hm, if_neg (by decide)]

/-- C9 counterexample: at network size 2 both capacity estimates evaluate
to 1 (the floors coincide), so the storkey capacity is not strictly
greater than the hebbian one. -/
theorem capacity_not_strictly_greater_at_two :
    ∃ netS netH, NewNetwork 2 "storkey" = .ok netS ∧ NewNetwork 2 "hebbian" = .ok netH ∧
      ¬(netH.Capacity < netS.Capacity) := by
  refine ⟨storkNet2, hebNet2, rfl, rfl, ?_⟩
  rw [capacity_storkey_eq storkNet2 rfl, capacity_hebbian_eq hebNet2 rfl]
  have e1 : ((storkNet2.n : ℕ) : ℝ) = (2 : ℝ) := by norm_num [storkNet2]
  have e2 : ((hebNet2.n : ℕ) : ℝ) = (2 : ℝ) := by norm_num [hebNet2]
  rw [e1, e2, cap_storkey_two, cap_hebbian_two]
  omega

/-- C9 amended: for every network size n at least 2, the storkey capacity
estimate is greater than or equal to the hebbian one; the inequality is
not strict in general (at size 2 the two floors coincide). -/
theorem capacity_storkey_ge_hebbian (n : ℕ) (hn : 2 ≤ n) (netS netH : Network)
    (hS : NewNetwork (n : ℤ) "storkey" = .ok netS)
    (hH : NewNetwork (n : ℤ) "hebbian" = .ok netH) :
    netH.Capacity ≤ netS.Capacity := by
  obtain ⟨-, hSn, -, -, hSm, -⟩ := newNetwork_ok_inv _ _ _ hS
  obtain ⟨-, hHn, -, -, hHm, -⟩ := newNetwork_ok_inv _ _ _ hH
  have hSn' : netS.n = n := by rw [hSn]; exact Int.toNat_natCast n
  have hHn' : netH.n = n := by rw [hHn]; exact Int.toNat_natCast n
  rw [capacity_storkey_eq netS hSm, capacity_hebbian_eq netH hHm, hSn', hHn']
  rcases eq_or_lt_of_le hn with h2 | h3
  · rw [← h2]
    have e1 : (((2 : ℕ)) : ℝ) = (2 : ℝ) := by norm_num
    rw [e1, cap_storkey_two, cap_hebbian_two]
  · have hn3 : (3 : ℝ) ≤ (n : ℝ) := by
      have h3' : (3 : ℕ) ≤ n := by omega
      exact_mod_cast h3'
    have hL1 : 1 ≤ Real.log (n : ℝ) := by
      rw [Real.le_log_iff_exp_le (by linarith)]
      have he := Real.exp_one_lt_d9
      have hb : (2.7182818286 : ℝ) ≤ 3 := by norm_num
      linarith
    have hL0 : 0 < Real.log (n : ℝ) := by linarith
    have hsle : Real.sqrt (Real.log (n : ℝ)) ≤ Real.log (n : ℝ) := by
      have h1 : Real.log (n : ℝ) ≤ Real.log (n : ℝ) ^ 2 := by nlinarith
      have h2' := Real.sqrt_le_sqrt h1
      rwa [Real.sqrt_sq (by linarith)] at h2'
    apply Int.floor_mono
    exact div_le_div_of_nonneg_left (by positivity)
      (mul_pos two_pos (Real.sqrt_pos.mpr hL0)) (by linarith)

/-- Witness for the amended C9 at size 2. -/
theorem capacity_storkey_ge_hebbian_witness :
    hebNet2.Capacity ≤ storkNet2.Capacity :=
  capacity_storkey_ge_hebbian 2 (le_refl 2) storkNet2 hebNet2 rfl rfl

end Gopfield
